import Mathlib

/-!
Verification of the pyminio path-resolution and tree-operation engine
(src/pyminio/main.py) against its natural-language specification.

The embedding works at the level of `List Char` for all string manipulation,
with `String` wrappers at the interface.  The minio client itself is an
external collaborator; its contract (bucket CRUD, single-level prefix
listing with common-prefix grouping, object CRUD) is modelled from the
specification by a concrete `Store` state.  Object payload bytes and custom
metadata do not influence any verified claim and are not carried in the
model.  Timestamps are natural numbers (`none` = missing, treated as the
epoch `0` exactly where the source does).
-/

/-- Predicate for characters other than the path separator. -/
def notSlash (c : Char) : Bool := c != '/'

/-- Collapse every run of consecutive separators to a single one.  This is
the source's `re.sub(r'/+', r'/', path)` normalisation in `Match.path`. -/
def squeeze : List Char → List Char
  | [] => []
  | [c] => [c]
  | a :: b :: cs => if a = '/' ∧ b = '/' then squeeze (b :: cs) else a :: squeeze (b :: cs)

/-- Normalised form of a path string (`Match.path`). -/
def normalizePath (s : String) : String := ⟨squeeze s.data⟩

/-- Two adjacent characters are never both separators. -/
def NotDS (a b : Char) : Prop := ¬(a = '/' ∧ b = '/')

/-- `os.path.join` on two components (posix semantics, as used by the source:
if the second part is absolute it wins; otherwise a separator is inserted
unless the first part is empty or already ends with one). -/
def pyJoinL (a b : List Char) : List Char :=
  if b.head? = some '/' then b
  else if a = [] ∨ a.getLast? = some '/' then a ++ b
  else a ++ '/' :: b

/-- `os.path.join` on strings. -/
def pyJoin (a b : String) : String := ⟨pyJoinL a.data b.data⟩

/-- Worker for Python `s.replace(pat, '')`, structurally recursive on a
step counter that the wrapper seeds with the string length (an upper bound
on the number of steps, since every step consumes at least one character
when the pattern is non-empty). -/
def replaceGo (pat : List Char) : Nat → List Char → List Char
  | _, [] => []
  | 0, cs => cs
  | n + 1, c :: cs =>
    if pat ≠ [] ∧ pat.isPrefixOf (c :: cs)
    then replaceGo pat n ((c :: cs).drop pat.length)
    else c :: replaceGo pat n cs

/-- Python `s.replace(pat, '')`: remove every (non-overlapping,
left-to-right) occurrence of `pat`.  The empty pattern leaves the string
unchanged because the replacement is itself empty. -/
def replaceAllL (pat cs : List Char) : List Char := replaceGo pat cs.length cs

/-- Python `s.replace(pat, '')` on strings. -/
def pyReplace (s pat : String) : String := ⟨replaceAllL pat.data s.data⟩

/-- Python `str.split('/')` (empty pieces are kept). -/
def splitOnSlash : List Char → List (List Char)
  | [] => [[]]
  | c :: cs =>
    if c = '/' then [] :: splitOnSlash cs
    else
      match splitOnSlash cs with
      | [] => [[c]]
      | w :: ws => (c :: w) :: ws

/-- `posixpath.normpath`, translated clause by clause. -/
def pyNormpath (p : String) : String :=
  if p = "" then "." else
  let slashes : Nat :=
    if p.data.head? = some '/' then
      (if p.data.take 2 = ['/', '/'] ∧ ¬(p.data.take 3 = ['/', '/', '/']) then 2 else 1)
    else 0
  let comps : List String := (splitOnSlash p.data).map (fun l => (⟨l⟩ : String))
  let newComps : List String := comps.foldl
    (fun acc comp =>
      if comp = "" ∨ comp = "." then acc
      else if comp ≠ ".." ∨ (slashes = 0 ∧ acc = []) ∨ (acc ≠ [] ∧ acc.getLast? = some "..")
      then acc ++ [comp]
      else if acc ≠ [] then acc.dropLast
      else acc) []
  let joined := String.intercalate "/" newComps
  let res : String := ⟨List.replicate slashes '/'⟩ ++ joined
  if res = "" then "." else res

/-- `posixpath.dirname`: everything up to the last separator, with trailing
separators stripped unless the head is all separators. -/
def pyDirname (p : String) : String :=
  let revAfter := p.data.reverse.takeWhile notSlash
  if revAfter.length = p.data.length then ""
  else
    let head := p.data.take (p.data.length - revAfter.length)
    if head ≠ [] ∧ ¬(head.all (fun c => c = '/'))
    then ⟨(head.reverse.dropWhile (fun c => c = '/')).reverse⟩
    else ⟨head⟩

/-- `posixpath.basename`: everything after the last separator. -/
def pyBasename (p : String) : String := ⟨(p.data.reverse.takeWhile notSlash).reverse⟩

/-- Semantic error kinds raised by the engine.  The source uses `ValueError`
uniformly for invalid paths, invalid operands and not-found conditions
(`valueError` here), and a dedicated `DirectoryNotEmptyError` (`notEmpty`).
The remaining constructors model store-client exceptions (`NoSuchKey`,
`NoSuchBucket`, `BucketNotEmpty`) and exhaustion of the explicit traversal
fuel used to render the source's worklist loops structurally recursive. -/
inductive PyErr where
  | valueError
  | notEmpty
  | noSuchKey
  | noSuchBucket
  | bucketNotEmpty
  | fuelOut
deriving DecidableEq, Repr

/-- The structured reference produced by the path resolver (`Match`):
the normalised path plus the `bucket`, `prefix` and `filename` groups of
`PATH_STRUCTURE`.  (`prefixStr` because `prefix` is not a usable name.) -/
structure PathMatch where
  path : String
  bucket : String
  prefixStr : String
  filename : String
deriving DecidableEq, Repr

/-- The regex `PATH_STRUCTURE = /(?P<bucket>.*?)/+(?P<prefix>.*/+)?(?P<filename>.+[^/])?`
evaluated by `re.match` on a normalised path: the leading separator is
mandatory; the lazy `bucket` group is the run of characters before the first
separator (the match fails when no separator follows); the greedy optional
`prefix` group extends through the last separator of the remainder; the
optional `filename` group is the residue after it.  The raw residue (`tail`)
is returned; the group only matches when it has at least two characters
(`.+[^/]`), which `parseMatch` accounts for. -/
def parseCore (cs : List Char) : Option (List Char × List Char × List Char) :=
  match cs with
  | [] => none
  | c :: rest =>
    if c = '/' then
      match rest.dropWhile notSlash with
      | [] => none
      | _ :: rem =>
        let b := rest.takeWhile notSlash
        let tail := (rem.reverse.takeWhile notSlash).reverse
        let pfx := (rem.reverse.dropWhile notSlash).reverse
        some (b, pfx, tail)
    else none

/-- `Match.__init__` / `Match._get_match`: normalise, treat the bare
separator as the all-empty root reference, otherwise run the grammar and
fail with `ValueError` when it does not match. -/
def parseMatch (raw : String) : Except PyErr PathMatch :=
  let np := normalizePath raw
  if np = "/" then .ok ⟨np, "", "", ""⟩
  else
    match parseCore np.data with
    | none => .error .valueError
    | some (b, pfx, tail) =>
      .ok ⟨np, ⟨b⟩, ⟨pfx⟩, if 2 ≤ tail.length then ⟨tail⟩ else ""⟩

/-- `Match.is_root`. -/
def PathMatch.is_root (m : PathMatch) : Bool := m.path == "/"

/-- `Match.relative_path = join(prefix, filename)`: the bucket-relative key. -/
def PathMatch.relative_path (m : PathMatch) : String := pyJoin m.prefixStr m.filename

/-- `Match.is_bucket`. -/
def PathMatch.is_bucket (m : PathMatch) : Bool := m.relative_path == ""

/-- `Match.is_dir`. -/
def PathMatch.is_dir (m : PathMatch) : Bool := m.filename == ""

/-- `Match.is_file`. -/
def PathMatch.is_file (m : PathMatch) : Bool := !m.is_dir

/-- `Match.infer_operation_destination`: requires a file source, keeps an
explicit file destination, otherwise re-parses the destination directory
path with the source's filename appended. -/
def inferOperationDestination (src dst : PathMatch) : Except PyErr PathMatch :=
  if src.is_file = false then .error .valueError
  else if dst.is_file then .ok dst
  else parseMatch (pyJoin dst.path src.filename)

/-- Modelled from the spec: one object stored in a bucket of the external
object store (flat key plus last-modification time; payload bytes and custom
metadata are irrelevant to the claims and omitted). -/
structure StoredObject where
  key : String
  lastModified : Option Nat
deriving DecidableEq, Repr

/-- Modelled from the spec: a bucket, in the store's native listing order. -/
structure StoreBucket where
  name : String
  creationDate : Option Nat
  objs : List StoredObject
deriving DecidableEq, Repr

/-- Modelled from the spec: the whole object store, the single source of
truth; `clock` supplies fresh modification timestamps. -/
structure Store where
  buckets : List StoreBucket
  clock : Nat
deriving DecidableEq, Repr

/-- One entry of a single-level `list_objects` listing. -/
structure ListedObject where
  bucketName : String
  objectName : String
  isDir : Bool
  lastModified : Option Nat
deriving DecidableEq, Repr

/-- Modelled from the spec: the single-level listing entry contributed by a
stored key under a prefix.  A key equal to the prefix itself (the
directory's own marker) is not listed; a key with no further separator
below the prefix is a file entry; any deeper key is grouped into the
common sub-prefix one level down, an `is_dir` entry carrying no date. -/
def entryOf (bname : String) (pfx : String) (o : StoredObject) : Option ListedObject :=
  if o.key = pfx then none
  else if pfx.data.isPrefixOf o.key.data then
    let rest := o.key.data.drop pfx.data.length
    match rest.findIdx? (fun c => c == '/') with
    | none => some ⟨bname, o.key, false, o.lastModified⟩
    | some i => some ⟨bname, ⟨pfx.data ++ rest.take (i + 1)⟩, true, none⟩
  else none

/-- Deduplicate listing entries by name, keeping first occurrences (the
store reports each common sub-prefix once). -/
def dedupGo (seen : List String) : List ListedObject → List ListedObject
  | [] => []
  | x :: xs =>
    if x.objectName ∈ seen then dedupGo seen xs
    else x :: dedupGo (x.objectName :: seen) xs

/-- Modelled from the spec: `list_objects(bucket, prefix)` — the store's
native-order single-level listing. -/
def listObjects (s : Store) (bname pfx : String) : List ListedObject :=
  match s.buckets.find? (fun bk => bk.name == bname) with
  | none => []
  | some bk => dedupGo [] (bk.objs.filterMap (entryOf bname pfx))

/-- Modelled from the spec: `bucket_exists`. -/
def bucketExists (s : Store) (b : String) : Bool := s.buckets.any (fun bk => bk.name == b)

/-- Raw object list of a bucket (empty when the bucket does not exist). -/
def bucketObjs (s : Store) (b : String) : List StoredObject :=
  match s.buckets.find? (fun bk => bk.name == b) with
  | none => []
  | some bk => bk.objs

/-- Whether the store holds an object under this exact key. -/
def hasObject (s : Store) (b k : String) : Bool := (bucketObjs s b).any (fun o => o.key == k)

/-- Modelled from the spec: `make_bucket`. -/
def makeBucket (s : Store) (b : String) : Store :=
  ⟨s.buckets ++ [⟨b, some s.clock, []⟩], s.clock + 1⟩

/-- Modelled from the spec: `put_object` (overwrites an existing key,
stamps the current clock; fails on a missing bucket). -/
def putObject (s : Store) (b k : String) : Except PyErr Store :=
  if bucketExists s b then
    .ok ⟨s.buckets.map (fun bk =>
          if bk.name == b
          then ⟨bk.name, bk.creationDate, bk.objs.filter (fun o => o.key != k) ++ [⟨k, some s.clock⟩]⟩
          else bk), s.clock + 1⟩
  else .error .noSuchBucket

/-- Modelled from the spec: `remove_object` (idempotent single delete). -/
def removeObject (s : Store) (b k : String) : Store :=
  ⟨s.buckets.map (fun bk =>
      if bk.name == b
      then ⟨bk.name, bk.creationDate, bk.objs.filter (fun o => o.key != k)⟩
      else bk), s.clock⟩

/-- Modelled from the spec: `remove_objects` (batch delete). -/
def removeObjects (s : Store) (b : String) (keys : List String) : Store :=
  ⟨s.buckets.map (fun bk =>
      if bk.name == b
      then ⟨bk.name, bk.creationDate, bk.objs.filter (fun o => !(keys.contains o.key))⟩
      else bk), s.clock⟩

/-- Modelled from the spec: `remove_bucket`, failing `BucketNotEmpty` on a
bucket that still holds objects. -/
def removeBucket (s : Store) (b : String) : Except PyErr Store :=
  match s.buckets.find? (fun bk => bk.name == b) with
  | none => .error .noSuchBucket
  | some bk =>
    if bk.objs ≠ [] then .error .bucketNotEmpty
    else .ok ⟨s.buckets.filter (fun bk => bk.name != b), s.clock⟩

/-- Modelled from the spec: `copy_object(dst_bucket, dst_key, "bucket/key")`
— the source spec string is split at its first separator. -/
def copyObject (s : Store) (dstB dstK srcSpec : String) : Except PyErr Store :=
  let cs := if srcSpec.data.head? = some '/' then srcSpec.data.drop 1 else srcSpec.data
  let sb : String := ⟨cs.takeWhile notSlash⟩
  match cs.dropWhile notSlash with
  | [] => .error .valueError
  | _ :: rest =>
    if hasObject s sb ⟨rest⟩ then putObject s dstB dstK else .error .noSuchKey

/-- Stable insertion for a descending sort: the new element is placed in
front of the first element whose key is not larger, so that elements that
occur earlier in the input stay in front of later elements with equal keys.
This is extensionally Python's stable `sorted(key=…, reverse=True)`. -/
def insertByDesc (key : α → Nat) (x : α) : List α → List α
  | [] => [x]
  | y :: ys => if key y ≤ key x then x :: y :: ys else y :: insertByDesc key x ys

/-- Stable descending sort by a numeric key (Python `sorted(…, key=key,
reverse=True)`). -/
def sortByDesc (key : α → Nat) : List α → List α
  | [] => []
  | x :: xs => insertByDesc key x (sortByDesc key xs)

/-- `get_last_modified`: a missing timestamp counts as the epoch. -/
def get_last_modified (o : ListedObject) : Nat := o.lastModified.getD 0

/-- `get_creation_date`: a missing timestamp counts as the epoch. -/
def get_creation_date (bk : StoreBucket) : Nat := bk.creationDate.getD 0

/-- `Pyminio._get_objects_at`: the native listing sorted most-recently
modified first. -/
def getObjectsAt (s : Store) (m : PathMatch) : List ListedObject :=
  sortByDesc get_last_modified (listObjects s m.bucket m.prefixStr)

/-- `Pyminio._get_buckets`: all buckets, most recently created first. -/
def getBuckets (s : Store) : List StoreBucket :=
  sortByDesc get_creation_date s.buckets

/-- `Pyminio.listdir` (with its `@_validate_directory` guard): the root
lists bucket names rendered as directories; otherwise each child name is
the listed object name with the parent prefix removed by `str.replace`. -/
def listdir (s : Store) (path : String) (onlyFiles : Bool) : Except PyErr (List String) :=
  match parseMatch path with
  | .error _ => .error .valueError
  | .ok vm =>
    if vm.is_file then .error .valueError
    else if vm.is_root then
      .ok (if onlyFiles then [] else (getBuckets s).map (fun bk => bk.name ++ "/"))
    else
      .ok (((getObjectsAt s vm).filter (fun o => !onlyFiles || !o.isDir)).map
            (fun o => pyReplace o.objectName vm.prefixStr))

/-- Kind tag of a `get` result (`File` vs `Folder`). -/
inductive ObjKind where
  | file
  | folder
deriving DecidableEq, Repr

/-- Result of `Pyminio.get` (payload bytes and merged metadata other than
`is_dir`/`last_modified` are irrelevant to the claims and omitted). -/
structure ObjData where
  kind : ObjKind
  name : String
  fullPath : String
  isDirMeta : Bool
  lastModified : Option Nat
deriving DecidableEq, Repr

/-- Lookup of a stored object by exact key (`get_object`/`stat_object`). -/
def findObject (s : Store) (b k : String) : Option StoredObject :=
  (bucketObjs s b).find? (fun o => o.key == k)

/-- `Pyminio.get`: buckets have no representable object; a file reference is
fetched by exact key; a directory reference is located in its parent's
listing by its relative path.  All not-found conditions surface as
`ValueError`, as the source catches `NoSuchKey`/`StopIteration`. -/
def get' (s : Store) (path : String) : Except PyErr ObjData :=
  match parseMatch path with
  | .error _ => .error .valueError
  | .ok m =>
    if m.is_bucket then .error .valueError
    else if m.is_file then
      match findObject s m.bucket m.relative_path with
      | none => .error .valueError
      | some o => .ok ⟨.file, m.filename, path, false, o.lastModified⟩
    else
      let parentDir := pyJoin (pyDirname (pyNormpath m.prefixStr)) ""
      match (listObjects s m.bucket parentDir).find?
              (fun o => o.objectName == m.relative_path) with
      | none => .error .valueError
      | some o => .ok ⟨.folder, pyJoin (pyBasename (pyNormpath o.objectName)) "", path, o.isDir, o.lastModified⟩

/-- `Pyminio.exists`: parse failures answer `false`; the root always exists;
bucket references only need the bucket; anything else must `get`
successfully (whose failures are all `ValueError`, which is caught). -/
def exists' (s : Store) (path : String) : Bool :=
  match parseMatch path with
  | .error _ => false
  | .ok m =>
    if m.is_root then true
    else if !bucketExists s m.bucket then false
    else if m.is_bucket then true
    else
      match get' s path with
      | .error _ => false
      | .ok _ => true

/-- `Pyminio.isdir`: note that `Match(path)` runs before `exists`, so an
invalid path raises instead of answering `false`. -/
def isdir (s : Store) (path : String) : Except PyErr Bool :=
  match parseMatch path with
  | .error _ => .error .valueError
  | .ok m => .ok (exists' s path && m.is_dir)

/-- Outcome of a mutating operation: the new store, or an error together
with the store at the moment of the raise (Python exceptions do not roll
state back). -/
abbrev PyRes := Except (PyErr × Store) Store

/-- The store carried by an outcome, successful or not. -/
def stateOf : PyRes → Store
  | .ok s => s
  | .error (_, s) => s

/-- `Pyminio.mkdirs` (with its `@_validate_directory` guard): refuses the
root, creates the bucket when absent, and for a non-bucket reference writes
the zero-length marker object at the prefix. -/
def mkdirs (s : Store) (path : String) : PyRes :=
  match parseMatch path with
  | .error _ => .error (.valueError, s)
  | .ok m =>
    if m.is_file then .error (.valueError, s)
    else if m.is_root then .error (.valueError, s)
    else
      let s₁ := if bucketExists s m.bucket then s else makeBucket s m.bucket
      if m.is_bucket then .ok s₁
      else
        match putObject s₁ m.bucket m.prefixStr with
        | .error e => .error (e, s₁)
        | .ok s₂ => .ok s₂

/-- One iteration of `rmdir`'s worklist loop: list the popped directory;
a non-empty listing under `recursive=False` raises `NotEmpty`; otherwise
file children are batch-deleted (against the top-level match's bucket, as
in the source) and sub-directory children are collected; the directory's
own marker is deleted exactly when no sub-directory children were listed
and the reference is not a bare bucket. -/
def rmdirProcessDir (topB : String) (recursive : Bool) (d : String) (s : Store) :
    Except (PyErr × Store) (List String × Store) :=
  match parseMatch d with
  | .error _ => .error (.valueError, s)
  | .ok cur =>
    let objs := getObjectsAt s cur
    if objs ≠ [] ∧ recursive = false then .error (.notEmpty, s)
    else
      let dirs := (objs.filter (fun o => o.isDir)).map
        (fun o => "/" ++ o.bucketName ++ "/" ++ o.objectName)
      let files := (objs.filter (fun o => !o.isDir)).map (fun o => o.objectName)
      let s₁ := if files ≠ [] then removeObjects s topB files else s
      let s₂ := if dirs = [] ∧ cur.is_bucket = false
                then removeObject s₁ cur.bucket cur.prefixStr
                else s₁
      .ok (dirs, s₂)

/-- The breadth-first worklist loop of `rmdir`, with explicit fuel bounding
the number of iterations. -/
def rmdirLoop : Nat → String → Bool → List String → Store → PyRes
  | _, _, _, [], s => .ok s
  | 0, _, _, _ :: _, s => .error (.fuelOut, s)
  | fuel + 1, topB, recursive, d :: rest, s =>
    match rmdirProcessDir topB recursive d s with
    | .error e => .error e
    | .ok (dirs, s') => rmdirLoop fuel topB recursive (rest ++ dirs) s'

/-- `listdir(ROOT)` as used by `truncate`: every bucket name with a
trailing separator, newest first. -/
def rootNames (s : Store) : List String := (getBuckets s).map (fun bk => bk.name ++ "/")

/-- Work item of the delete dispatcher: one `rmdir` call, or `truncate`'s
loop over a list of bucket names. -/
inductive RmCmd where
  | one (path : String) (recursive : Bool)
  | many (paths : List String)

/-- `Pyminio.rmdir` and `Pyminio.truncate`, fused into one function that is
structurally recursive on the fuel (`rmdir` on the root with
`recursive=True` runs `truncate`, which in turn calls `rmdir` on each
bucket).  `rmdir` (with its `@_validate_directory` guard): the root is only
deletable recursively (via `truncate`); otherwise the worklist traversal
runs and, for a bare bucket reference, the bucket itself is finally
removed, a late `BucketNotEmpty` being remapped to `NotEmpty`. -/
def rmdirRun : Nat → RmCmd → Store → PyRes
  | 0, _, s => .error (.fuelOut, s)
  | fuel + 1, .one path recursive, s =>
    (match parseMatch path with
    | .error _ => .error (.valueError, s)
    | .ok m =>
      if m.is_file then .error (.valueError, s)
      else if m.is_root then
        if recursive then rmdirRun fuel (.many (rootNames s)) s
        else .error (.notEmpty, s)
      else
        match rmdirLoop fuel m.bucket recursive [path] s with
        | .error e => .error e
        | .ok s' =>
          if m.is_bucket then
            match removeBucket s' m.bucket with
            | .error .bucketNotEmpty => .error (.notEmpty, s')
            | .error e => .error (e, s')
            | .ok s'' => .ok s''
          else .ok s')
  | _, .many [], s => .ok s
  | fuel + 1, .many (b :: bs), s =>
    match rmdirRun fuel (.one (pyJoin "/" b) true) s with
    | .error e => .error e
    | .ok s' => rmdirRun fuel (.many bs) s'

/-- `Pyminio.rmdir`. -/
def rmdirGo (fuel : Nat) (path : String) (recursive : Bool) (s : Store) : PyRes :=
  rmdirRun fuel (.one path recursive) s

/-- `Pyminio.truncate`'s loop over the listed bucket names. -/
def truncateList (fuel : Nat) (bs : List String) (s : Store) : PyRes :=
  rmdirRun fuel (.many bs) s

/-- `Pyminio.rm`: directories are dispatched to `rmdir`, anything else is a
single-object delete at the relative path. -/
def rm (fuel : Nat) (path : String) (recursive : Bool) (s : Store) : PyRes :=
  match isdir s path with
  | .error e => .error (e, s)
  | .ok true => rmdirGo fuel path recursive s
  | .ok false =>
    match parseMatch path with
    | .error _ => .error (.valueError, s)
    | .ok m => .ok (removeObject s m.bucket m.relative_path)

/-- `Pyminio._get_destination`: file sources defer to
`infer_operation_destination`; a directory source into an existing
directory destination is nested under the source directory's base name;
a directory source into a file destination is refused. -/
def getDestination (s : Store) (fromP toP : String) : Except PyErr PathMatch :=
  match parseMatch fromP with
  | .error e => .error e
  | .ok fm =>
    match parseMatch toP with
    | .error e => .error e
    | .ok tm =>
      if fm.is_file then inferOperationDestination fm tm
      else if tm.is_dir then
        (if exists' s tm.path then
           parseMatch (pyJoin (pyJoin tm.path
             (pyBasename ((pyJoin fm.bucket fm.prefixStr).dropRight 1))) "")
         else .ok tm)
      else .error .valueError

/-- A pending single-file copy discovered during the recursive-copy walk. -/
structure CopyTask where
  fromPath : String
  toPath : String
deriving DecidableEq, Repr

/-- The worklist walk of `copy_recursively`: each level enqueues
sub-directories, records one copy task per file child (destination =
`to_path` joined with the source-relative suffix), and mirrors a
childless directory at the destination via `mkdirs`. -/
def copyCollect : Nat → String → String → List String → List CopyTask → Store →
    Except (PyErr × Store) (List CopyTask × Store)
  | _, _, _, [], acc, s => .ok (acc, s)
  | 0, _, _, _ :: _, _, s => .error (.fuelOut, s)
  | fuel + 1, fromP, toP, d :: rest, acc, s =>
    match parseMatch d with
    | .error _ => .error (.valueError, s)
    | .ok cur =>
      let objs := getObjectsAt s cur
      let dirs := (objs.filter (fun o => o.isDir)).map
        (fun o => "/" ++ o.bucketName ++ "/" ++ o.objectName)
      let newTasks := (objs.filter (fun o => !o.isDir)).map (fun o =>
        let op := "/" ++ o.bucketName ++ "/" ++ o.objectName
        (⟨op, pyJoin toP (pyReplace op fromP)⟩ : CopyTask))
      let step : PyRes :=
        if dirs = [] then mkdirs s (pyJoin toP (pyReplace cur.path fromP)) else .ok s
      match step with
      | .error e => .error e
      | .ok s' => copyCollect fuel fromP toP (rest ++ dirs) (acc ++ newTasks) s'

/-- Work item of the copy dispatcher: one `cp` call, one
`copy_recursively` walk, or the execution of collected copy tasks. -/
inductive CpCmd where
  | one (fromP toP : String) (recursive : Bool)
  | walk (fromP toP : String)
  | exec (tasks : List CopyTask)

/-- `Pyminio.cp`, `Pyminio.copy_recursively` and the execution of its
collected tasks, fused into one function structurally recursive on the
fuel (`cp` on a directory source calls `copy_recursively`, which calls
`cp` once per discovered file).  `cp` resolves the true destination,
requires `recursive` for a directory source, and otherwise performs one
store-level object copy; `copy_recursively` (with its
`@_validate_directory` guard on the source path) walks the tree collecting
copy tasks, then executes them. -/
def cpRun : Nat → CpCmd → Store → PyRes
  | 0, _, s => .error (.fuelOut, s)
  | fuel + 1, .one fromP toP recursive, s =>
    (match parseMatch fromP with
    | .error _ => .error (.valueError, s)
    | .ok fm =>
      match getDestination s fromP toP with
      | .error e => .error (e, s)
      | .ok tm =>
        if fm.is_dir then
          if recursive then cpRun fuel (.walk fm.path tm.path) s
          else .error (.valueError, s)
        else
          match copyObject s tm.bucket tm.relative_path
                  (pyJoin fm.bucket fm.relative_path) with
          | .error e => .error (e, s)
          | .ok s' => .ok s')
  | fuel + 1, .walk fromP toP, s =>
    (match parseMatch fromP with
    | .error _ => .error (.valueError, s)
    | .ok vm =>
      if vm.is_file then .error (.valueError, s)
      else
        match copyCollect (fuel + 1) fromP toP [fromP] [] s with
        | .error e => .error e
        | .ok (tasks, s') => cpRun fuel (.exec tasks) s')
  | _, .exec [], s => .ok s
  | fuel + 1, .exec (t :: ts), s =>
    match cpRun fuel (.one t.fromPath t.toPath false) s with
    | .error e => .error e
    | .ok s' => cpRun fuel (.exec ts) s'

/-- `Pyminio.cp`. -/
def cp (fuel : Nat) (fromP toP : String) (recursive : Bool) (s : Store) : PyRes :=
  cpRun fuel (.one fromP toP recursive) s

/-- `Pyminio.copy_recursively`. -/
def copyRecursively (fuel : Nat) (fromP toP : String) (s : Store) : PyRes :=
  cpRun fuel (.walk fromP toP) s

/-- `Pyminio.mv`: resolve the destination, attempt the copy, and in a
`finally` block delete the source when both the source and the resolved
destination exist in the post-copy state; an exception raised by that
cleanup supersedes the copy's own outcome, as in Python. -/
def mv (fuel : Nat) (fromP toP : String) (recursive : Bool) (s : Store) : PyRes :=
  match getDestination s fromP toP with
  | .error e => .error (e, s)
  | .ok tm =>
    let body := cp fuel fromP toP recursive s
    let s' := stateOf body
    let fin : PyRes :=
      if (exists' s' fromP && exists' s' tm.path) = true
      then rm fuel fromP recursive s'
      else .ok s'
    match fin with
    | .error e => .error e
    | .ok s'' =>
      match body with
      | .error (e, _) => .error (e, s'')
      | .ok _ => .ok s''

/-- Store used to witness the marker deletion of the `rmdir` traversal:
one bucket holding a directory with a single file. -/
def storeA : Store := ⟨[⟨"b", some 1, [⟨"d/", some 1⟩, ⟨"d/f", some 2⟩]⟩], 10⟩

/-- Store exhibiting `mv`'s failing source cleanup: a non-empty directory
`/b/d/` and an independently pre-existing destination `/b/e/d/`. -/
def storeB : Store := ⟨[⟨"b", some 1,
  [⟨"d/", some 1⟩, ⟨"d/f", some 2⟩, ⟨"e/", some 3⟩, ⟨"e/d/", some 4⟩]⟩], 10⟩

/-- Store exhibiting the `str.replace` flaw of `listdir`: the directory
`/b/a/` contains a sub-directory that is itself named `a`. -/
def storeC : Store := ⟨[⟨"b", some 1, [⟨"a/", some 1⟩, ⟨"a/a/", some 2⟩]⟩], 10⟩

/-- Store with a single empty directory `/b/d/`. -/
def storeD : Store := ⟨[⟨"b", some 1, [⟨"d/", some 1⟩]⟩], 10⟩

/-- Store for a successful single-file move `/b/x/ff` into `/b/y/`. -/
def storeE : Store := ⟨[⟨"b", some 1, [⟨"x/", some 1⟩, ⟨"x/ff", some 2⟩, ⟨"y/", some 3⟩]⟩], 10⟩

/-! ## Lemmas about the path normaliser and grammar -/

theorem notSlash_false_iff (c : Char) : notSlash c = false ↔ c = '/' := by
  simp [notSlash]

theorem notSlash_true_iff (c : Char) : notSlash c = true ↔ c ≠ '/' := by
  simp [notSlash]

theorem head_squeeze (a : Char) (l : List Char) : ∃ t, squeeze (a :: l) = a :: t := by
  induction l generalizing a with
  | nil => exact ⟨[], rfl⟩
  | cons b cs ih =>
    by_cases h : a = '/' ∧ b = '/'
    · obtain ⟨t, ht⟩ := ih b
      refine ⟨t, ?_⟩
      rw [squeeze, if_pos h, ht, h.1, h.2]
    · exact ⟨squeeze (b :: cs), by rw [squeeze, if_neg h]⟩

theorem chain_squeeze (l : List Char) : (squeeze l).Chain' NotDS := by
  induction l with
  | nil => simp [squeeze]
  | cons a l ih =>
    cases l with
    | nil => simp [squeeze]
    | cons b cs =>
      rw [squeeze]
      by_cases h : a = '/' ∧ b = '/'
      · rw [if_pos h]; exact ih
      · rw [if_neg h]
        obtain ⟨t, ht⟩ := head_squeeze b cs
        rw [ht]
        rw [ht] at ih
        exact List.chain'_cons.mpr ⟨h, ih⟩

theorem squeeze_eq_self {l : List Char} (h : l.Chain' NotDS) : squeeze l = l := by
  induction l with
  | nil => rfl
  | cons a l ih =>
    cases l with
    | nil => rfl
    | cons b cs =>
      have h' := List.chain'_cons.mp h
      rw [squeeze, if_neg h'.1, ih h'.2]

theorem dropWhile_first {p : Char → Bool} {l : List Char} {x : Char} {xs : List Char}
    (h : l.dropWhile p = x :: xs) : p x = false := by
  induction l with
  | nil => simp [List.dropWhile] at h
  | cons a l ih =>
    rw [List.dropWhile_cons] at h
    by_cases ha : p a = true
    · exact ih (by simpa [ha] using h)
    · rw [if_neg ha] at h
      injection h with h1 h2
      subst h1
      simpa using ha

theorem takeWhile_all {p : Char → Bool} {l : List Char} (h : ∀ c ∈ l, p c = true) :
    l.takeWhile p = l := by
  induction l with
  | nil => rfl
  | cons a l ih =>
    rw [List.takeWhile_cons, if_pos (h a (List.mem_cons_self a l))]
    rw [ih (fun c hc => h c (List.mem_cons_of_mem a hc))]

theorem dropWhile_all {p : Char → Bool} {l : List Char} (h : ∀ c ∈ l, p c = true) :
    l.dropWhile p = [] := by
  induction l with
  | nil => rfl
  | cons a l ih =>
    rw [List.dropWhile_cons, if_pos (h a (List.mem_cons_self a l))]
    exact ih (fun c hc => h c (List.mem_cons_of_mem a hc))

theorem takeWhile_append_stop {p : Char → Bool} {b : List Char} {x : Char} (r : List Char)
    (hb : ∀ c ∈ b, p c = true) (hx : p x = false) :
    (b ++ x :: r).takeWhile p = b := by
  induction b with
  | nil => simp [List.takeWhile_cons, hx]
  | cons a bs ih =>
    rw [List.cons_append, List.takeWhile_cons, if_pos (hb a (List.mem_cons_self a bs))]
    rw [ih (fun c hc => hb c (List.mem_cons_of_mem a hc))]

theorem dropWhile_append_stop {p : Char → Bool} {b : List Char} {x : Char} (r : List Char)
    (hb : ∀ c ∈ b, p c = true) (hx : p x = false) :
    (b ++ x :: r).dropWhile p = x :: r := by
  induction b with
  | nil => simp [List.dropWhile_cons, hx]
  | cons a bs ih =>
    rw [List.cons_append, List.dropWhile_cons, if_pos (hb a (List.mem_cons_self a bs))]
    exact ih (fun c hc => hb c (List.mem_cons_of_mem a hc))

theorem parseCore_eq_some {cs b pfx tail : List Char}
    (h : parseCore cs = some (b, pfx, tail)) :
    cs = '/' :: (b ++ '/' :: (pfx ++ tail)) ∧ (∀ c ∈ b, notSlash c = true) ∧
    (∀ c ∈ tail, notSlash c = true) ∧ (pfx = [] ∨ pfx.getLast? = some '/') := by
  cases cs with
  | nil => simp [parseCore] at h
  | cons c rest =>
    rw [parseCore] at h
    by_cases hc : c = '/'
    · rw [if_pos hc] at h
      cases hdw : rest.dropWhile notSlash with
      | nil => rw [hdw] at h; simp at h
      | cons y rem =>
        rw [hdw] at h
        simp only [Option.some.injEq, Prod.mk.injEq] at h
        obtain ⟨hb, hpfx, htail⟩ := h
        have hy : y = '/' := (notSlash_false_iff y).mp (dropWhile_first hdw)
        have hrest : rest = b ++ '/' :: rem := by
          have hsplit := List.takeWhile_append_dropWhile (p := notSlash) (l := rest)
          rw [hdw, hb, hy] at hsplit
          exact hsplit.symm
        have hrem : rem = pfx ++ tail := by
          rw [← hpfx, ← htail, ← List.reverse_append,
            List.takeWhile_append_dropWhile, List.reverse_reverse]
        refine ⟨by rw [hc, hrest, hrem], ?_, ?_, ?_⟩
        · intro a ha
          rw [← hb] at ha
          exact List.mem_takeWhile_imp ha
        · intro a ha
          rw [← htail, List.mem_reverse] at ha
          exact List.mem_takeWhile_imp ha
        · cases hdw2 : rem.reverse.dropWhile notSlash with
          | nil => left; rw [← hpfx, hdw2]; rfl
          | cons z zs =>
            right
            have hz : z = '/' := (notSlash_false_iff z).mp (dropWhile_first hdw2)
            rw [← hpfx, hdw2, hz]
            simp
    · rw [if_neg hc] at h; simp at h

theorem reverse_head_slash {pfx : List Char} (hne : pfx ≠ [])
    (hp : pfx.getLast? = some '/') : ∃ zs, pfx.reverse = '/' :: zs := by
  have h1 : pfx.reverse.head? = some '/' := by rw [List.head?_reverse]; exact hp
  cases hpr : pfx.reverse with
  | nil =>
    exact absurd (by simpa using congrArg List.reverse hpr) hne
  | cons z zs =>
    rw [hpr] at h1
    simp only [List.head?_cons, Option.some.injEq] at h1
    exact ⟨zs, by rw [h1]⟩

theorem parseCore_build {b pfx tail : List Char}
    (hb : ∀ c ∈ b, notSlash c = true) (ht : ∀ c ∈ tail, notSlash c = true)
    (hp : pfx = [] ∨ pfx.getLast? = some '/') :
    parseCore ('/' :: (b ++ '/' :: (pfx ++ tail))) = some (b, pfx, tail) := by
  rw [parseCore]
  rw [if_pos rfl]
  have hdw : (b ++ '/' :: (pfx ++ tail)).dropWhile notSlash = '/' :: (pfx ++ tail) :=
    dropWhile_append_stop _ hb (by simp [notSlash])
  have htw : (b ++ '/' :: (pfx ++ tail)).takeWhile notSlash = b :=
    takeWhile_append_stop _ hb (by simp [notSlash])
  rw [hdw]
  simp only [Option.some.injEq, Prod.mk.injEq]
  have htrev : ∀ c ∈ tail.reverse, notSlash c = true := by
    intro c hc; exact ht c (List.mem_reverse.mp hc)
  by_cases hpe : pfx = []
  · subst hpe
    refine ⟨htw, ?_, ?_⟩
    · simp only [List.nil_append, List.reverse_append] -- no-op when pfx is gone
      rw [dropWhile_all htrev]
      rfl
    · simp only [List.nil_append]
      rw [takeWhile_all htrev, List.reverse_reverse]
  · have hp' : pfx.getLast? = some '/' := hp.resolve_left hpe
    obtain ⟨zs, hzz⟩ := reverse_head_slash hpe hp'
    refine ⟨htw, ?_, ?_⟩
    · rw [List.reverse_append, hzz,
        dropWhile_append_stop _ htrev (by simp [notSlash])]
      rw [← hzz, List.reverse_reverse]
    · rw [List.reverse_append, hzz,
        takeWhile_append_stop _ htrev (by simp [notSlash])]
      rw [List.reverse_reverse]

theorem string_mk_data (s : String) : (⟨s.data⟩ : String) = s := rfl

theorem string_mk_inj {a b : List Char} (h : (⟨a⟩ : String) = ⟨b⟩) : a = b := by
  cases h; rfl

theorem string_append_mk (a b : List Char) :
    ((⟨a⟩ : String) ++ (⟨b⟩ : String)) = (⟨a ++ b⟩ : String) := rfl

theorem string_data_append (a b : String) : (a ++ b).data = a.data ++ b.data := by
  cases a with
  | mk ad => cases b with
    | mk bd => rfl

theorem string_ext {a b : String} (h : a.data = b.data) : a = b := by
  cases a with
  | mk ad => cases b with
    | mk bd => cases h; rfl

theorem parseMatch_ok_struct {raw : String} {m : PathMatch} (h : parseMatch raw = .ok m) :
    m.path = normalizePath raw ∧ m.path.data.Chain' NotDS ∧
    ((m.path = "/" ∧ m.bucket = "" ∧ m.prefixStr = "" ∧ m.filename = "") ∨
     (m.path ≠ "/" ∧ ∃ b pfx tail,
        m.path.data = '/' :: (b ++ '/' :: (pfx ++ tail)) ∧
        b ≠ [] ∧ (∀ c ∈ b, notSlash c = true) ∧ (∀ c ∈ tail, notSlash c = true) ∧
        (pfx = [] ∨ pfx.getLast? = some '/') ∧
        m.bucket = ⟨b⟩ ∧ m.prefixStr = ⟨pfx⟩ ∧
        m.filename = (if 2 ≤ tail.length then (⟨tail⟩ : String) else ""))) := by
  simp only [parseMatch] at h
  by_cases hroot : normalizePath raw = "/"
  · rw [if_pos hroot] at h
    simp only [Except.ok.injEq] at h
    subst h
    refine ⟨rfl, ?_, Or.inl ⟨hroot, rfl, rfl, rfl⟩⟩
    show (normalizePath raw).data.Chain' NotDS
    rw [hroot]
    simp [List.chain'_singleton]
  · rw [if_neg hroot] at h
    cases hcore : parseCore (normalizePath raw).data with
    | none => rw [hcore] at h; simp at h
    | some v =>
      obtain ⟨b, pfx, tail⟩ := v
      rw [hcore] at h
      simp only [Except.ok.injEq] at h
      subst h
      obtain ⟨hdata, hbs, hts, hps⟩ := parseCore_eq_some hcore
      have hchain : (normalizePath raw).data.Chain' NotDS := chain_squeeze raw.data
      have hbne : b ≠ [] := by
        intro hbe
        subst hbe
        rw [List.nil_append] at hdata
        rw [hdata] at hchain
        exact (List.chain'_cons.mp hchain).1 ⟨rfl, rfl⟩
      exact ⟨rfl, hchain, Or.inr ⟨hroot, b, pfx, tail, hdata, hbne, hbs, hts, hps,
        rfl, rfl, rfl⟩⟩

theorem parseMatch_build {str : String} {b pfx tail : List Char}
    (hdata : str.data = '/' :: (b ++ '/' :: (pfx ++ tail)))
    (hchain : str.data.Chain' NotDS)
    (hb : ∀ c ∈ b, notSlash c = true) (ht : ∀ c ∈ tail, notSlash c = true)
    (hp : pfx = [] ∨ pfx.getLast? = some '/') :
    parseMatch str =
      .ok ⟨str, ⟨b⟩, ⟨pfx⟩, if 2 ≤ tail.length then (⟨tail⟩ : String) else ""⟩ := by
  have hnorm : normalizePath str = str := by
    unfold normalizePath
    rw [squeeze_eq_self hchain]
  have hne : str ≠ "/" := by
    intro hcontra
    rw [hcontra] at hdata
    have : b ++ '/' :: (pfx ++ tail) = ([] : List Char) := by
      have := congrArg List.tail hdata
      simpa using this.symm
    rcases List.append_eq_nil.mp this with ⟨-, habs⟩
    exact List.cons_ne_nil _ _ habs
  simp only [parseMatch, hnorm, if_neg hne, hdata, parseCore_build hb ht hp]

theorem chain_of_all_notSlash {l : List Char} (h : ∀ c ∈ l, notSlash c = true) :
    l.Chain' NotDS := by
  induction l with
  | nil => simp
  | cons a l ih =>
    cases l with
    | nil => simp
    | cons x xs =>
      refine List.chain'_cons.mpr ⟨?_, ?_⟩
      · rintro ⟨-, hx⟩
        have hmem := h x (List.mem_cons_of_mem a (List.mem_cons_self x xs))
        rw [hx] at hmem
        simp [notSlash] at hmem
      · exact ih (fun c hc => h c (List.mem_cons_of_mem a hc))

theorem parseMatch_single_component {fn : List Char} (hne : fn ≠ [])
    (hfn : ∀ c ∈ fn, notSlash c = true) :
    parseMatch ⟨'/' :: fn⟩ = .error .valueError := by
  have hchain : ('/' :: fn).Chain' NotDS := by
    cases fn with
    | nil => simp
    | cons a l =>
      refine List.chain'_cons.mpr ⟨?_, chain_of_all_notSlash hfn⟩
      rintro ⟨-, ha⟩
      have hmem := hfn a (List.mem_cons_self a l)
      rw [ha] at hmem
      simp [notSlash] at hmem
  have hdat : (⟨'/' :: fn⟩ : String).data = '/' :: fn := rfl
  have hnorm : normalizePath ⟨'/' :: fn⟩ = ⟨'/' :: fn⟩ := by
    unfold normalizePath
    rw [hdat, squeeze_eq_self hchain]
  have hner : (⟨'/' :: fn⟩ : String) ≠ "/" := by
    intro hcontra
    have := string_mk_inj hcontra
    simp only [List.cons.injEq] at this
    exact hne this.2
  have hcore : parseCore ('/' :: fn) = none := by
    rw [parseCore, if_pos rfl, dropWhile_all hfn]
  simp only [parseMatch, hnorm, if_neg hner, hdat, hcore]

theorem is_root_false_iff (m : PathMatch) : m.is_root = false ↔ m.path ≠ "/" := by
  simp [PathMatch.is_root]

theorem pyJoin_eq_append {a b : String} (hb : ∀ c ∈ b.data, notSlash c = true)
    (ha : a.data = [] ∨ a.data.getLast? = some '/') : pyJoin a b = a ++ b := by
  unfold pyJoin pyJoinL
  have h1 : ¬(b.data.head? = some '/') := by
    intro hx
    cases hbd : b.data with
    | nil => rw [hbd] at hx; simp at hx
    | cons x xs =>
      rw [hbd] at hx
      simp only [List.head?_cons, Option.some.injEq] at hx
      have hm := hb x (by rw [hbd]; exact List.mem_cons_self x xs)
      rw [hx] at hm
      simp [notSlash] at hm
  rw [if_neg h1, if_pos ha]
  cases a with
  | mk ad => cases b with
    | mk bd => rfl

/-- C8: for every non-root path the resolver accepts, the reference has a
non-empty bucket free of separators, a filename free of separators, a
prefix that is empty or ends with a separator, and a relative path that is
the plain concatenation of prefix and filename. -/
theorem resolver_invariants (p : String) (m : PathMatch)
    (h : parseMatch p = .ok m) (hnr : m.is_root = false) :
    m.bucket ≠ "" ∧ (∀ c ∈ m.bucket.data, notSlash c = true) ∧
    (∀ c ∈ m.filename.data, notSlash c = true) ∧
    (m.prefixStr = "" ∨ m.prefixStr.data.getLast? = some '/') ∧
    m.relative_path = m.prefixStr ++ m.filename := by
  obtain ⟨hpath, hchain, hcase⟩ := parseMatch_ok_struct h
  have hnp : m.path ≠ "/" := (is_root_false_iff m).mp hnr
  rcases hcase with ⟨hroot, -⟩ | ⟨-, b, pfx, tail, hdata, hbne, hbs, hts, hps, hbk, hpfx, hfn⟩
  · exact absurd hroot hnp
  have hfnchars : ∀ c ∈ m.filename.data, notSlash c = true := by
    rw [hfn]
    by_cases h2 : 2 ≤ tail.length
    · rw [if_pos h2]; exact hts
    · rw [if_neg h2]; intro c hc; simp at hc
  have hpfxshape : m.prefixStr = "" ∨ m.prefixStr.data.getLast? = some '/' := by
    rw [hpfx]
    rcases hps with hps | hps
    · left; rw [hps]
    · right; exact hps
  refine ⟨?_, ?_, hfnchars, hpfxshape, ?_⟩
  · rw [hbk]; intro hcontra; exact hbne (string_mk_inj hcontra)
  · rw [hbk]; exact hbs
  · rw [PathMatch.relative_path]
    apply pyJoin_eq_append hfnchars
    rcases hpfxshape with hce | hce
    · left; rw [hce]
    · right; exact hce

/-- C8 witness at the concrete path `/b/x/yz`. -/
theorem resolver_invariants_witness :
    parseMatch "/b/x/yz" = .ok ⟨"/b/x/yz", "b", "x/", "yz"⟩ ∧
    (⟨"/b/x/yz", "b", "x/", "yz"⟩ : PathMatch).is_root = false ∧
    (("b" : String) ≠ "" ∧ (∀ c ∈ ("b" : String).data, notSlash c = true) ∧
     (∀ c ∈ ("yz" : String).data, notSlash c = true) ∧
     (("x/" : String) = "" ∨ ("x/" : String).data.getLast? = some '/') ∧
     (⟨"/b/x/yz", "b", "x/", "yz"⟩ : PathMatch).relative_path = "x/" ++ "yz") :=
  ⟨by rfl, by decide,
   resolver_invariants "/b/x/yz" ⟨"/b/x/yz", "b", "x/", "yz"⟩ (by rfl) (by decide)⟩

/-- C7 counterexample: the distinct path string `//` also resolves to the
all-empty root reference, so "no path other than the root path resolves to
a reference with all three fields empty" fails as stated. -/
theorem resolve_root_counterexample :
    parseMatch "//" = .ok ⟨"/", "", "", ""⟩ ∧ ("//" : String) ≠ "/" := by
  constructor
  · rfl
  · decide

/-- C7 amended: a path resolves to the all-empty reference exactly when its
separator-collapsed form is the root path. -/
theorem resolve_root_iff (p : String) (m : PathMatch) (h : parseMatch p = .ok m) :
    (m.bucket = "" ∧ m.prefixStr = "" ∧ m.filename = "") ↔ normalizePath p = "/" := by
  obtain ⟨hpath, -, hcase⟩ := parseMatch_ok_struct h
  constructor
  · rintro ⟨hb, -, -⟩
    rcases hcase with ⟨hroot, -⟩ | ⟨-, b, pfx, tail, -, hbne, -, -, -, hbk, -, -⟩
    · rw [← hpath]; exact hroot
    · exfalso; rw [hbk] at hb; exact hbne (string_mk_inj hb)
  · intro hroot
    simp only [parseMatch] at h
    rw [hroot, if_pos rfl] at h
    simp only [Except.ok.injEq] at h
    subst h
    exact ⟨rfl, rfl, rfl⟩

/-- C7 witness: the root path itself. -/
theorem resolve_root_iff_witness :
    parseMatch "/" = .ok ⟨"/", "", "", ""⟩ ∧
    ((("" : String) = "" ∧ ("" : String) = "" ∧ ("" : String) = "") ↔
      normalizePath "/" = "/") :=
  ⟨by rfl, resolve_root_iff "/" ⟨"/", "", "", ""⟩ (by rfl)⟩

/-- C9: a path string that fails the grammar makes `isdir` raise
`InvalidPath` (a `ValueError`), while `exists` on the same string answers
`false` without raising. -/
theorem isdir_raises_exists_false (s : Store) (p : String) (e : PyErr)
    (h : parseMatch p = .error e) :
    isdir s p = .error .valueError ∧ exists' s p = false := by
  constructor
  · simp only [isdir, h]
  · simp only [exists', h]

/-- C9 witness at the separator-free string `abc`. -/
theorem isdir_raises_exists_false_witness :
    parseMatch "abc" = .error .valueError ∧
    (isdir storeA "abc" = .error .valueError ∧ exists' storeA "abc" = false) :=
  ⟨by rfl, isdir_raises_exists_false storeA "abc" .valueError (by rfl)⟩

/-- C10: a single-component path `/name` (no further separator) is rejected
with `InvalidPath`, and every accepted non-root path has at least two
separators after normalisation. -/
theorem single_component_invalid :
    (∀ name : String, name ≠ "" → (∀ c ∈ name.data, notSlash c = true) →
       parseMatch ("/" ++ name) = .error .valueError) ∧
    (∀ (p : String) (m : PathMatch), parseMatch p = .ok m → m.is_root = false →
       2 ≤ (normalizePath p).data.count '/') := by
  constructor
  · intro name hne hns
    have hrepr : ("/" ++ name) = (⟨'/' :: name.data⟩ : String) := rfl
    rw [hrepr]
    apply parseMatch_single_component ?_ hns
    intro hd
    apply hne
    cases name with
    | mk d =>
      have hd' : d = [] := hd
      subst hd'
      rfl
  · intro p m h hnr
    obtain ⟨hpath, -, hcase⟩ := parseMatch_ok_struct h
    have hnp : m.path ≠ "/" := (is_root_false_iff m).mp hnr
    rcases hcase with ⟨hroot, -⟩ | ⟨-, b, pfx, tail, hdata, -⟩
    · exact absurd hroot hnp
    · rw [← hpath, hdata]
      simp [List.count_cons, List.count_append]
      omega

/-- C10 witness: `/abc` is rejected; `/b/x` is accepted with two
separators. -/
theorem single_component_invalid_witness :
    (("abc" : String) ≠ "" ∧ parseMatch ("/" ++ "abc") = .error .valueError) ∧
    (parseMatch "/b/xy" = .ok ⟨"/b/xy", "b", "", "xy"⟩ ∧
     2 ≤ (normalizePath "/b/xy").data.count '/') :=
  ⟨⟨by decide, single_component_invalid.1 "abc" (by decide) (by decide)⟩,
   ⟨by rfl, single_component_invalid.2 "/b/xy" ⟨"/b/xy", "b", "", "xy"⟩ (by rfl) (by decide)⟩⟩

theorem is_file_true_iff (m : PathMatch) : m.is_file = true ↔ m.filename ≠ "" := by
  simp [PathMatch.is_file, PathMatch.is_dir]

theorem is_file_false_iff (m : PathMatch) : m.is_file = false ↔ m.filename = "" := by
  simp [PathMatch.is_file, PathMatch.is_dir]

theorem is_root_true_iff (m : PathMatch) : m.is_root = true ↔ m.path = "/" := by
  simp [PathMatch.is_root]

theorem head_not_slash {l : List Char} (h : ∀ c ∈ l, notSlash c = true) :
    l.head? ≠ some '/' := by
  intro hx
  cases l with
  | nil => simp at hx
  | cons x xs =>
    simp only [List.head?_cons, Option.some.injEq] at hx
    have hm := h x (List.mem_cons_self x xs)
    rw [hx] at hm
    simp [notSlash] at hm

theorem chain_slash_cons {fn : List Char} (h : ∀ c ∈ fn, notSlash c = true) :
    ('/' :: fn).Chain' NotDS := by
  cases fn with
  | nil => simp
  | cons a l =>
    refine List.chain'_cons.mpr ⟨?_, chain_of_all_notSlash h⟩
    rintro ⟨-, ha⟩
    have hm := h a (List.mem_cons_self a l)
    rw [ha] at hm
    simp [notSlash] at hm

theorem parse_file_filename {p : String} {m : PathMatch} (h : parseMatch p = .ok m)
    (hf : m.is_file = true) :
    2 ≤ m.filename.data.length ∧ ∀ c ∈ m.filename.data, notSlash c = true := by
  have hne : m.filename ≠ "" := (is_file_true_iff m).mp hf
  obtain ⟨-, -, hcase⟩ := parseMatch_ok_struct h
  rcases hcase with ⟨-, -, -, hfn⟩ | ⟨-, b, pfx, tail, -, -, -, hts, -, -, -, hfn⟩
  · exact absurd hfn hne
  · by_cases h2 : 2 ≤ tail.length
    · rw [hfn, if_pos h2]
      exact ⟨h2, hts⟩
    · rw [hfn, if_neg h2] at hne
      exact absurd rfl hne

theorem pyJoin_root_file {fn : List Char} (hfn : ∀ c ∈ fn, notSlash c = true) :
    pyJoin "/" ⟨fn⟩ = ⟨'/' :: fn⟩ := by
  apply string_ext
  show pyJoinL ['/'] fn = '/' :: fn
  unfold pyJoinL
  rw [if_neg (head_not_slash hfn)]
  simp

/-- C3 counterexample: for a file source and the root as destination,
`infer_operation_destination` raises instead of returning a reference with
the source's filename, because `/<filename>` is not a parsable path. -/
theorem infer_destination_root_counterexample :
    parseMatch "/foo/baz" = .ok ⟨"/foo/baz", "foo", "", "baz"⟩ ∧
    parseMatch "/" = .ok ⟨"/", "", "", ""⟩ ∧
    (⟨"/foo/baz", "foo", "", "baz"⟩ : PathMatch).is_file = true ∧
    (⟨"/", "", "", ""⟩ : PathMatch).is_file = false ∧
    inferOperationDestination ⟨"/foo/baz", "foo", "", "baz"⟩ ⟨"/", "", "", ""⟩ =
      .error .valueError :=
  ⟨by rfl, by rfl, by decide, by decide, by rfl⟩

/-- C3 amended: with both references produced by the resolver — a
non-file source raises `InvalidOperand`; for a file source, an explicit
file destination is returned unchanged; the root destination raises
`InvalidPath`; any other directory destination yields a reference carrying
the source's filename whose path is the `join` of the destination path and
that filename, and when the destination path ends with the separator the
result's directory part is exactly the destination path. -/
theorem infer_destination_spec (p₁ p₂ : String) (src dst : PathMatch)
    (h₁ : parseMatch p₁ = .ok src) (h₂ : parseMatch p₂ = .ok dst) :
    (src.is_file = false → inferOperationDestination src dst = .error .valueError) ∧
    (src.is_file = true →
      ((dst.is_file = true → inferOperationDestination src dst = .ok dst) ∧
       (dst.is_file = false → dst.is_root = true →
          inferOperationDestination src dst = .error .valueError) ∧
       (dst.is_file = false → dst.is_root = false →
          ∃ res, inferOperationDestination src dst = .ok res ∧
            res.filename = src.filename ∧
            res.path = pyJoin dst.path src.filename ∧
            (dst.path.data.getLast? = some '/' →
               res.path = dst.path ++ src.filename ∧
               ("/" ++ res.bucket ++ "/" ++ res.prefixStr) = dst.path)))) := by
  constructor
  · intro hsf
    rw [inferOperationDestination, if_pos hsf]
  intro hsf
  obtain ⟨hlen, hchars⟩ := parse_file_filename h₁ hsf
  have hsrcfn : src.filename = ⟨src.filename.data⟩ := rfl
  refine ⟨?_, ?_, ?_⟩
  · intro hdf
    rw [inferOperationDestination, if_neg (by rw [hsf]; simp), if_pos hdf]
  · intro hdf hdr
    have hdpath : dst.path = "/" := (is_root_true_iff dst).mp hdr
    rw [inferOperationDestination, if_neg (by rw [hsf]; simp), if_neg (by rw [hdf]; simp)]
    rw [hdpath, hsrcfn, pyJoin_root_file hchars]
    exact parseMatch_single_component (by intro hd; rw [hd] at hlen; simp at hlen) hchars
  · intro hdf hdr
    have hdfn : dst.filename = "" := (is_file_false_iff dst).mp hdf
    have hdnp : dst.path ≠ "/" := (is_root_false_iff dst).mp hdr
    obtain ⟨-, hchain₂, hcase₂⟩ := parseMatch_ok_struct h₂
    rcases hcase₂ with ⟨habs, -⟩ | ⟨-, b₂, pfx₂, tail₂, hdata₂, hbne₂, hbs₂, hts₂, hps₂, hbk₂, hpfx₂, hfn₂⟩
    · exact absurd habs hdnp
    have htail₂ : tail₂.length ≤ 1 := by
      by_contra hgt
      rw [hfn₂, if_pos (by omega)] at hdfn
      have : tail₂ = [] := string_mk_inj hdfn
      rw [this] at hgt
      simp at hgt
    rw [inferOperationDestination, if_neg (by rw [hsf]; simp), if_neg (by rw [hdf]; simp)]
    -- the destination path is either marker-terminated (the residue after
    -- its last separator is empty) or carries one dangling character that
    -- the filename group could not match
    cases tail2c : tail₂ with
    | nil =>
      rw [tail2c, List.append_nil] at hdata₂
      have hlast : dst.path.data.getLast? = some '/' := by
        rw [hdata₂]
        rcases hps₂ with hpe | hpe
        · rw [hpe]
          have : ('/' :: (b₂ ++ ['/'])) = ('/' :: b₂) ++ ['/'] := by simp
          rw [this, List.getLast?_concat]
        · have : ('/' :: (b₂ ++ '/' :: pfx₂)) = (('/' :: b₂) ++ ['/']) ++ pfx₂ := by simp
          rw [this, List.getLast?_append, hpe]
          rfl
      have hjoin : pyJoin dst.path src.filename = dst.path ++ src.filename :=
        pyJoin_eq_append hchars (Or.inr hlast)
      have hJdata : (dst.path ++ src.filename).data =
          '/' :: (b₂ ++ '/' :: (pfx₂ ++ src.filename.data)) := by
        rw [string_data_append, hdata₂]
        simp
      have hJchain : (dst.path ++ src.filename).data.Chain' NotDS := by
        rw [string_data_append]
        refine List.chain'_append.mpr ⟨hchain₂, chain_of_all_notSlash hchars, ?_⟩
        intro x hx y hy
        rw [hlast] at hx
        simp only [Option.mem_def, Option.some.injEq] at hx
        have hymem : y ∈ src.filename.data := List.mem_of_mem_head? hy
        have := hchars y hymem
        rintro ⟨-, hy'⟩
        rw [hy'] at this
        simp [notSlash] at this
      have hbuild := parseMatch_build hJdata hJchain hbs₂ hchars hps₂
      rw [if_pos hlen] at hbuild
      refine ⟨⟨dst.path ++ src.filename, ⟨b₂⟩, ⟨pfx₂⟩, ⟨src.filename.data⟩⟩,
        by rw [hjoin]; exact hbuild, hsrcfn.symm, by rw [hjoin], ?_⟩
      intro hend
      refine ⟨rfl, ?_⟩
      apply string_ext
      rw [string_data_append, string_data_append, string_data_append, hdata₂]
      simp
    | cons c rest =>
      have hrest : rest = [] := by
        rw [tail2c] at htail₂
        simp only [List.length_cons] at htail₂
        exact List.eq_nil_of_length_eq_zero (by omega)
      subst hrest
      rw [tail2c] at hdata₂ hts₂
      have hc : c ≠ '/' := by
        have := hts₂ c (List.mem_cons_self c [])
        simp [notSlash] at this
        exact this
      have hlast : dst.path.data.getLast? = some c := by
        rw [hdata₂]
        have : ('/' :: (b₂ ++ '/' :: (pfx₂ ++ [c]))) =
            (('/' :: b₂) ++ '/' :: pfx₂) ++ [c] := by simp
        rw [this, List.getLast?_concat]
      have hjoin : pyJoin dst.path src.filename =
          ⟨dst.path.data ++ '/' :: src.filename.data⟩ := by
        unfold pyJoin pyJoinL
        rw [if_neg (head_not_slash hchars)]
        rw [if_neg ?_]
        rintro (hdd | hdd)
        · rw [hdata₂] at hdd; simp at hdd
        · rw [hlast] at hdd
          simp only [Option.some.injEq] at hdd
          exact hc hdd
      have hJdata : (⟨dst.path.data ++ '/' :: src.filename.data⟩ : String).data =
          '/' :: (b₂ ++ '/' :: ((pfx₂ ++ [c, '/']) ++ src.filename.data)) := by
        show dst.path.data ++ '/' :: src.filename.data =
          '/' :: (b₂ ++ '/' :: ((pfx₂ ++ [c, '/']) ++ src.filename.data))
        rw [hdata₂]
        simp
      have hJchain :
          (⟨dst.path.data ++ '/' :: src.filename.data⟩ : String).data.Chain' NotDS := by
        show (dst.path.data ++ '/' :: src.filename.data).Chain' NotDS
        refine List.chain'_append.mpr ⟨hchain₂, chain_slash_cons hchars, ?_⟩
        intro x hx y hy
        rw [hlast] at hx
        simp only [Option.mem_def, Option.some.injEq] at hx
        simp only [List.head?_cons, Option.mem_def, Option.some.injEq] at hy
        subst hx hy
        rintro ⟨hx', -⟩
        exact hc hx'
      have hps' : (pfx₂ ++ [c, '/']) = [] ∨ (pfx₂ ++ [c, '/']).getLast? = some '/' := by
        right
        have : pfx₂ ++ [c, '/'] = (pfx₂ ++ [c]) ++ ['/'] := by simp
        rw [this, List.getLast?_concat]
      have hbuild := parseMatch_build hJdata hJchain hbs₂ hchars hps'
      rw [if_pos hlen] at hbuild
      refine ⟨⟨⟨dst.path.data ++ '/' :: src.filename.data⟩, ⟨b₂⟩, ⟨pfx₂ ++ [c, '/']⟩,
        ⟨src.filename.data⟩⟩, by rw [hjoin]; exact hbuild, hsrcfn.symm, by rw [hjoin], ?_⟩
      intro hend
      rw [hlast] at hend
      simp only [Option.some.injEq] at hend
      exact absurd hend hc

/-- C3 witness: the docstring example, copying `/foo/bar1/baz` into
`/foo/bar2/`, plus the directory source `/foo/bar1/`, which exercises the
`InvalidOperand` clause for a non-file source. -/
theorem infer_destination_spec_witness :
    parseMatch "/foo/bar1/baz" = .ok ⟨"/foo/bar1/baz", "foo", "bar1/", "baz"⟩ ∧
    parseMatch "/foo/bar1/" = .ok ⟨"/foo/bar1/", "foo", "bar1/", ""⟩ ∧
    parseMatch "/foo/bar2/" = .ok ⟨"/foo/bar2/", "foo", "bar2/", ""⟩ ∧
    (((⟨"/foo/bar1/baz", "foo", "bar1/", "baz"⟩ : PathMatch).is_file = false →
        inferOperationDestination ⟨"/foo/bar1/baz", "foo", "bar1/", "baz"⟩
          ⟨"/foo/bar2/", "foo", "bar2/", ""⟩ = .error .valueError) ∧
     ((⟨"/foo/bar1/baz", "foo", "bar1/", "baz"⟩ : PathMatch).is_file = true →
       (((⟨"/foo/bar2/", "foo", "bar2/", ""⟩ : PathMatch).is_file = true →
           inferOperationDestination ⟨"/foo/bar1/baz", "foo", "bar1/", "baz"⟩
             ⟨"/foo/bar2/", "foo", "bar2/", ""⟩ = .ok ⟨"/foo/bar2/", "foo", "bar2/", ""⟩) ∧
        ((⟨"/foo/bar2/", "foo", "bar2/", ""⟩ : PathMatch).is_file = false →
         (⟨"/foo/bar2/", "foo", "bar2/", ""⟩ : PathMatch).is_root = true →
           inferOperationDestination ⟨"/foo/bar1/baz", "foo", "bar1/", "baz"⟩
             ⟨"/foo/bar2/", "foo", "bar2/", ""⟩ = .error .valueError) ∧
        ((⟨"/foo/bar2/", "foo", "bar2/", ""⟩ : PathMatch).is_file = false →
         (⟨"/foo/bar2/", "foo", "bar2/", ""⟩ : PathMatch).is_root = false →
           ∃ res, inferOperationDestination ⟨"/foo/bar1/baz", "foo", "bar1/", "baz"⟩
               ⟨"/foo/bar2/", "foo", "bar2/", ""⟩ = .ok res ∧
             res.filename = (⟨"/foo/bar1/baz", "foo", "bar1/", "baz"⟩ : PathMatch).filename ∧
             res.path = pyJoin (⟨"/foo/bar2/", "foo", "bar2/", ""⟩ : PathMatch).path
               (⟨"/foo/bar1/baz", "foo", "bar1/", "baz"⟩ : PathMatch).filename ∧
             ((⟨"/foo/bar2/", "foo", "bar2/", ""⟩ : PathMatch).path.data.getLast? = some '/' →
               res.path = (⟨"/foo/bar2/", "foo", "bar2/", ""⟩ : PathMatch).path ++
                 (⟨"/foo/bar1/baz", "foo", "bar1/", "baz"⟩ : PathMatch).filename ∧
               ("/" ++ res.bucket ++ "/" ++ res.prefixStr) =
                 (⟨"/foo/bar2/", "foo", "bar2/", ""⟩ : PathMatch).path))))) ∧
    (((⟨"/foo/bar1/", "foo", "bar1/", ""⟩ : PathMatch).is_file = false →
        inferOperationDestination ⟨"/foo/bar1/", "foo", "bar1/", ""⟩
          ⟨"/foo/bar2/", "foo", "bar2/", ""⟩ = .error .valueError) ∧
     ((⟨"/foo/bar1/", "foo", "bar1/", ""⟩ : PathMatch).is_file = true →
       (((⟨"/foo/bar2/", "foo", "bar2/", ""⟩ : PathMatch).is_file = true →
           inferOperationDestination ⟨"/foo/bar1/", "foo", "bar1/", ""⟩
             ⟨"/foo/bar2/", "foo", "bar2/", ""⟩ = .ok ⟨"/foo/bar2/", "foo", "bar2/", ""⟩) ∧
        ((⟨"/foo/bar2/", "foo", "bar2/", ""⟩ : PathMatch).is_file = false →
         (⟨"/foo/bar2/", "foo", "bar2/", ""⟩ : PathMatch).is_root = true →
           inferOperationDestination ⟨"/foo/bar1/", "foo", "bar1/", ""⟩
             ⟨"/foo/bar2/", "foo", "bar2/", ""⟩ = .error .valueError) ∧
        ((⟨"/foo/bar2/", "foo", "bar2/", ""⟩ : PathMatch).is_file = false →
         (⟨"/foo/bar2/", "foo", "bar2/", ""⟩ : PathMatch).is_root = false →
           ∃ res, inferOperationDestination ⟨"/foo/bar1/", "foo", "bar1/", ""⟩
               ⟨"/foo/bar2/", "foo", "bar2/", ""⟩ = .ok res ∧
             res.filename = (⟨"/foo/bar1/", "foo", "bar1/", ""⟩ : PathMatch).filename ∧
             res.path = pyJoin (⟨"/foo/bar2/", "foo", "bar2/", ""⟩ : PathMatch).path
               (⟨"/foo/bar1/", "foo", "bar1/", ""⟩ : PathMatch).filename ∧
             ((⟨"/foo/bar2/", "foo", "bar2/", ""⟩ : PathMatch).path.data.getLast? = some '/' →
               res.path = (⟨"/foo/bar2/", "foo", "bar2/", ""⟩ : PathMatch).path ++
                 (⟨"/foo/bar1/", "foo", "bar1/", ""⟩ : PathMatch).filename ∧
               ("/" ++ res.bucket ++ "/" ++ res.prefixStr) =
                 (⟨"/foo/bar2/", "foo", "bar2/", ""⟩ : PathMatch).path))))) :=
  ⟨by rfl, by rfl, by rfl,
   infer_destination_spec "/foo/bar1/baz" "/foo/bar2/"
     ⟨"/foo/bar1/baz", "foo", "bar1/", "baz"⟩ ⟨"/foo/bar2/", "foo", "bar2/", ""⟩
     (by rfl) (by rfl),
   infer_destination_spec "/foo/bar1/" "/foo/bar2/"
     ⟨"/foo/bar1/", "foo", "bar1/", ""⟩ ⟨"/foo/bar2/", "foo", "bar2/", ""⟩
     (by rfl) (by rfl)⟩

/-! ## Lemmas about the stable descending sort -/

theorem mem_insertByDesc {key : α → Nat} {x a : α} {l : List α} :
    a ∈ insertByDesc key x l ↔ a = x ∨ a ∈ l := by
  induction l with
  | nil => simp [insertByDesc]
  | cons y ys ih =>
    rw [insertByDesc]
    by_cases h : key y ≤ key x
    · rw [if_pos h]
      simp [List.mem_cons]
    · rw [if_neg h]
      simp only [List.mem_cons, ih]
      tauto

theorem pairwise_insertByDesc {key : α → Nat} {x : α} {l : List α}
    (h : l.Pairwise (fun u v => key v ≤ key u)) :
    (insertByDesc key x l).Pairwise (fun u v => key v ≤ key u) := by
  induction l with
  | nil => simp [insertByDesc]
  | cons y ys ih =>
    rw [insertByDesc]
    obtain ⟨hy, hys⟩ := List.pairwise_cons.mp h
    by_cases hc : key y ≤ key x
    · rw [if_pos hc]
      refine List.pairwise_cons.mpr ⟨?_, h⟩
      intro z hz
      rcases List.mem_cons.mp hz with rfl | hz
      · exact hc
      · exact le_trans (hy z hz) hc
    · rw [if_neg hc]
      refine List.pairwise_cons.mpr ⟨?_, ih hys⟩
      intro z hz
      rcases mem_insertByDesc.mp hz with rfl | hz
      · exact le_of_not_le hc
      · exact hy z hz

theorem pairwise_sortByDesc (key : α → Nat) (l : List α) :
    (sortByDesc key l).Pairwise (fun u v => key v ≤ key u) := by
  induction l with
  | nil => simp [sortByDesc]
  | cons x xs ih =>
    rw [sortByDesc]
    exact pairwise_insertByDesc ih

theorem mem_sortByDesc {key : α → Nat} {a : α} {l : List α} :
    a ∈ sortByDesc key l ↔ a ∈ l := by
  induction l with
  | nil => simp [sortByDesc]
  | cons x xs ih =>
    rw [sortByDesc, mem_insertByDesc, ih]
    simp [List.mem_cons]

theorem filter_insertByDesc_ne {key : α → Nat} {x : α} {l : List α} {t : Nat}
    (hx : ¬ key x = t) :
    (insertByDesc key x l).filter (fun a => key a == t) =
      l.filter (fun a => key a == t) := by
  induction l with
  | nil => simp [insertByDesc, List.filter_cons, hx]
  | cons y ys ih =>
    rw [insertByDesc]
    by_cases hc : key y ≤ key x
    · rw [if_pos hc]
      simp [List.filter_cons, hx]
    · rw [if_neg hc]
      simp only [List.filter_cons, ih]

theorem filter_insertByDesc_eq {key : α → Nat} {x : α} {l : List α} {t : Nat}
    (hx : key x = t) (hl : l.Pairwise (fun u v => key v ≤ key u)) :
    (insertByDesc key x l).filter (fun a => key a == t) =
      x :: l.filter (fun a => key a == t) := by
  induction l with
  | nil => simp [insertByDesc, List.filter_cons, hx]
  | cons y ys ih =>
    obtain ⟨hy, hys⟩ := List.pairwise_cons.mp hl
    rw [insertByDesc]
    by_cases hc : key y ≤ key x
    · rw [if_pos hc]
      simp [List.filter_cons, hx]
    · rw [if_neg hc]
      have hyne : ¬ key y = t := by
        rw [← hx]
        intro hcontra
        exact hc (le_of_eq hcontra)
      have hyb : (key y == t) = false := by
        simp [hyne]
      simp only [List.filter_cons, hyb, Bool.false_eq_true, if_false]
      exact ih hys

theorem filter_sortByDesc (key : α → Nat) (l : List α) (t : Nat) :
    (sortByDesc key l).filter (fun a => key a == t) =
      l.filter (fun a => key a == t) := by
  induction l with
  | nil => simp [sortByDesc]
  | cons x xs ih =>
    rw [sortByDesc]
    by_cases hx : key x = t
    · rw [filter_insertByDesc_eq hx (pairwise_sortByDesc key xs), ih, List.filter_cons,
        if_pos (by simpa using hx)]
    · rw [filter_insertByDesc_ne hx, ih, List.filter_cons, if_neg (by simpa using hx)]

/-- C6: `_get_objects_at` orders entries most-recently-modified first
(missing timestamps counting as the epoch, via `get_last_modified`) and,
for every timestamp value, preserves the store's native order among entries
sharing it (a stable descending sort); at the root, `listdir` renders every
bucket name with a trailing separator, ordered by `_get_buckets`, which has
the same two properties for creation dates. -/
theorem listdir_ordering (s : Store) (m : PathMatch) :
    ((getObjectsAt s m).Pairwise
        (fun a b => get_last_modified b ≤ get_last_modified a) ∧
     ∀ t, (getObjectsAt s m).filter (fun o => get_last_modified o == t) =
          (listObjects s m.bucket m.prefixStr).filter
            (fun o => get_last_modified o == t)) ∧
    (listdir s "/" false = .ok ((getBuckets s).map (fun bk => bk.name ++ "/")) ∧
     (getBuckets s).Pairwise
        (fun a b => get_creation_date b ≤ get_creation_date a) ∧
     ∀ t, (getBuckets s).filter (fun bk => get_creation_date bk == t) =
          s.buckets.filter (fun bk => get_creation_date bk == t)) := by
  refine ⟨⟨pairwise_sortByDesc _ _, fun t => filter_sortByDesc _ _ t⟩,
    ?_, pairwise_sortByDesc _ _, fun t => filter_sortByDesc _ _ t⟩
  rfl

/-- C5 (code defect): `listdir` removes every occurrence of the parent
prefix from a child's key, not only the leading one, because it uses
`str.replace`.  At `/b/a/` with the sub-directory key `a/a/`, the claimed
name is `a/` (the key with the parent prefix stripped from its front) but
the code returns the empty string. -/
theorem listdir_replace_bug :
    listdir storeC "/b/a/" false = .ok [""] ∧
    pyReplace "a/a/" "a/" = "" ∧
    ([""] : List String) ≠ ["a/"] :=
  ⟨by rfl, by rfl, by decide⟩

/-! ## Lemmas about the store model -/

theorem mem_dedupGo {seen : List String} {l : List ListedObject} {x : ListedObject}
    (h : x ∈ dedupGo seen l) : x ∈ l := by
  induction l generalizing seen with
  | nil => simpa [dedupGo] using h
  | cons y ys ih =>
    rw [dedupGo] at h
    by_cases hc : y.objectName ∈ seen
    · rw [if_pos hc] at h
      exact List.mem_cons_of_mem y (ih h)
    · rw [if_neg hc] at h
      rcases List.mem_cons.mp h with rfl | h
      · exact List.mem_cons_self _ _
      · exact List.mem_cons_of_mem y (ih h)

theorem listObjects_file_name {s : Store} {bn pfx : String} {o : ListedObject}
    (h : o ∈ listObjects s bn pfx) (hd : o.isDir = false) : o.objectName ≠ pfx := by
  unfold listObjects at h
  cases hfind : s.buckets.find? (fun bk => bk.name == bn) with
  | none => rw [hfind] at h; simp at h
  | some bk =>
    rw [hfind] at h
    obtain ⟨src, hsrc, hentry⟩ := List.mem_filterMap.mp (mem_dedupGo h)
    unfold entryOf at hentry
    by_cases hk : src.key = pfx
    · rw [if_pos hk] at hentry; simp at hentry
    · rw [if_neg hk] at hentry
      by_cases hpf : pfx.data.isPrefixOf src.key.data
      · rw [if_pos hpf] at hentry
        dsimp only at hentry
        cases hidx : (src.key.data.drop pfx.data.length).findIdx? (fun c => c == '/') with
        | none =>
          rw [hidx] at hentry
          simp only [Option.some.injEq] at hentry
          rw [← hentry]
          exact hk
        | some i =>
          rw [hidx] at hentry
          simp only [Option.some.injEq] at hentry
          rw [← hentry] at hd
          simp at hd
      · rw [if_neg hpf] at hentry; simp at hentry

theorem find_map_update (bks : List StoreBucket) (b : String)
    (f : StoreBucket → List StoredObject) :
    (bks.map (fun bk => if bk.name == b
        then (⟨bk.name, bk.creationDate, f bk⟩ : StoreBucket) else bk)).find?
          (fun bk => bk.name == b) =
    (bks.find? (fun bk => bk.name == b)).map
      (fun bk => (⟨bk.name, bk.creationDate, f bk⟩ : StoreBucket)) := by
  induction bks with
  | nil => rfl
  | cons bk rest ih =>
    rw [List.map_cons]
    cases hb : (bk.name == b) with
    | true =>
      rw [if_pos rfl]
      simp only [List.find?_cons, hb, Option.map_some']
    | false =>
      rw [if_neg (by simp)]
      simp only [List.find?_cons, hb]
      exact ih

theorem bucketObjs_update (bks : List StoreBucket) (c : Nat) (b : String)
    (f : StoreBucket → List StoredObject) :
    bucketObjs ⟨bks.map (fun bk => if bk.name == b
        then (⟨bk.name, bk.creationDate, f bk⟩ : StoreBucket) else bk), c⟩ b =
    (match bks.find? (fun bk => bk.name == b) with
     | none => []
     | some bk => f bk) := by
  unfold bucketObjs
  dsimp only
  rw [find_map_update]
  cases hfind : bks.find? (fun bk => bk.name == b) with
  | none => rfl
  | some bk => rfl

theorem bucketObjs_removeObjects (s : Store) (b : String) (keys : List String) :
    bucketObjs (removeObjects s b keys) b =
      (bucketObjs s b).filter (fun o => !(keys.contains o.key)) := by
  unfold removeObjects
  rw [bucketObjs_update]
  unfold bucketObjs
  cases s.buckets.find? (fun bk => bk.name == b) with
  | none => rfl
  | some bk => rfl

theorem bucketObjs_removeObject (s : Store) (b k : String) :
    bucketObjs (removeObject s b k) b =
      (bucketObjs s b).filter (fun o => o.key != k) := by
  unfold removeObject
  rw [bucketObjs_update]
  unfold bucketObjs
  cases s.buckets.find? (fun bk => bk.name == b) with
  | none => rfl
  | some bk => rfl

theorem any_filter_ne (k : String) (os : List StoredObject) :
    (os.filter (fun o => o.key != k)).any (fun o => o.key == k) = false := by
  induction os with
  | nil => rfl
  | cons o os ih =>
    rw [List.filter_cons]
    by_cases hc : (o.key != k) = true
    · rw [if_pos hc, List.any_cons, ih]
      have hne : (o.key == k) = false := by
        simpa [bne] using hc
      rw [hne]
      rfl
    · rw [if_neg hc]
      exact ih

theorem hasObject_removeObject_self (s : Store) (b k : String) :
    hasObject (removeObject s b k) b k = false := by
  unfold hasObject
  rw [bucketObjs_removeObject]
  exact any_filter_ne k _

theorem any_filter_not_mem (k : String) (keys : List String) (hk : ¬ k ∈ keys)
    (os : List StoredObject) :
    (os.filter (fun o => !(keys.contains o.key))).any (fun o => o.key == k) =
      os.any (fun o => o.key == k) := by
  induction os with
  | nil => rfl
  | cons o os ih =>
    rw [List.filter_cons, List.any_cons]
    by_cases hc : (!(keys.contains o.key)) = true
    · rw [if_pos hc, List.any_cons, ih]
    · rw [if_neg hc, ih]
      have hmem : o.key ∈ keys := by
        have : keys.contains o.key = true := by
          cases hcc : keys.contains o.key with
          | true => rfl
          | false => rw [hcc] at hc; simp at hc
        simpa using this
      have hne : o.key ≠ k := fun hco => hk (hco ▸ hmem)
      have hbe : (o.key == k) = false := by simp [hne]
      rw [hbe]
      simp

theorem hasObject_removeObjects_not_mem (s : Store) (b : String) (keys : List String)
    (k : String) (hk : ¬ k ∈ keys) :
    hasObject (removeObjects s b keys) b k = hasObject s b k := by
  unfold hasObject
  rw [bucketObjs_removeObjects]
  exact any_filter_not_mem k keys hk _

/-- C1: one iteration of the recursive `rmdir` traversal deletes the
visited directory's own marker object exactly when the listing produced no
sub-directory children and the reference is not a bare bucket; file-child
deletion never touches the marker, so otherwise the marker's presence is
unchanged. -/
theorem rmdir_marker_delete_step (s : Store) (topB d : String) (cur : PathMatch)
    (hparse : parseMatch d = .ok cur) (hb : cur.bucket = topB) :
    ∃ dirs s₂, rmdirProcessDir topB true d s = .ok (dirs, s₂) ∧
      dirs = ((getObjectsAt s cur).filter (fun o => o.isDir)).map
               (fun o => "/" ++ o.bucketName ++ "/" ++ o.objectName) ∧
      (hasObject s₂ cur.bucket cur.prefixStr = false ↔
        (dirs = [] ∧ cur.is_bucket = false) ∨
        hasObject s cur.bucket cur.prefixStr = false) := by
  subst hb
  have hfilesne : ∀ n ∈ ((getObjectsAt s cur).filter (fun o => !o.isDir)).map
      (fun o => o.objectName), n ≠ cur.prefixStr := by
    intro n hn
    obtain ⟨o, ho, rfl⟩ := List.mem_map.mp hn
    obtain ⟨ho1, ho2⟩ := List.mem_filter.mp ho
    have homem : o ∈ listObjects s cur.bucket cur.prefixStr := mem_sortByDesc.mp ho1
    have hdirf : o.isDir = false := by simpa using ho2
    exact listObjects_file_name homem hdirf
  simp only [rmdirProcessDir, hparse]
  rw [if_neg (by simp)]
  refine ⟨_, _, rfl, rfl, ?_⟩
  set files := ((getObjectsAt s cur).filter (fun o => !o.isDir)).map
    (fun o => o.objectName) with hfiles
  set dirs := ((getObjectsAt s cur).filter (fun o => o.isDir)).map
    (fun o => "/" ++ o.bucketName ++ "/" ++ o.objectName) with hdirs
  have hs₁ : hasObject (if files ≠ [] then removeObjects s cur.bucket files else s)
      cur.bucket cur.prefixStr = hasObject s cur.bucket cur.prefixStr := by
    by_cases hf : files = []
    · rw [if_neg (by simp [hf])]
    · rw [if_pos hf]
      exact hasObject_removeObjects_not_mem s cur.bucket files cur.prefixStr
        (fun hmem => hfilesne _ hmem rfl)
  by_cases hcond : dirs = [] ∧ cur.is_bucket = false
  · rw [if_pos hcond, hasObject_removeObject_self]
    simp [hcond.1, hcond.2]
  · rw [if_neg hcond, hs₁]
    constructor
    · intro hh
      exact Or.inr hh
    · intro hh
      rcases hh with hh | hh
      · exact absurd hh hcond
      · exact hh

/-- C1 witness: visiting `/b/d/`, a directory with one file child and no
sub-directories, in `storeA`. -/
theorem rmdir_marker_delete_step_witness :
    parseMatch "/b/d/" = .ok ⟨"/b/d/", "b", "d/", ""⟩ ∧
    (⟨"/b/d/", "b", "d/", ""⟩ : PathMatch).bucket = "b" ∧
    (∃ dirs s₂, rmdirProcessDir "b" true "/b/d/" storeA = .ok (dirs, s₂) ∧
      dirs = ((getObjectsAt storeA (⟨"/b/d/", "b", "d/", ""⟩ : PathMatch)).filter
          (fun o => o.isDir)).map
          (fun o => "/" ++ o.bucketName ++ "/" ++ o.objectName) ∧
      (hasObject s₂ (⟨"/b/d/", "b", "d/", ""⟩ : PathMatch).bucket
          (⟨"/b/d/", "b", "d/", ""⟩ : PathMatch).prefixStr = false ↔
        (dirs = [] ∧ (⟨"/b/d/", "b", "d/", ""⟩ : PathMatch).is_bucket = false) ∨
        hasObject storeA (⟨"/b/d/", "b", "d/", ""⟩ : PathMatch).bucket
          (⟨"/b/d/", "b", "d/", ""⟩ : PathMatch).prefixStr = false)) :=
  ⟨by rfl, by rfl,
   rmdir_marker_delete_step storeA "b" "/b/d/" ⟨"/b/d/", "b", "d/", ""⟩ (by rfl) (by rfl)⟩

/-- C4: non-recursive `rmdir` succeeds on an empty directory and fails
`NotEmpty` on a directory with at least one child; on the root it fails
`NotEmpty` unless `recursive=True`, in which case it runs `truncate`'s
loop over every listed bucket (deleting each bucket and its contents). -/
theorem rmdir_nonrecursive_semantics (fuel : Nat) (s : Store) (path : String)
    (m : PathMatch) (hparse : parseMatch path = .ok m) (hdir : m.is_file = false)
    (hfuel : 2 ≤ fuel) :
    (m.is_root = true →
       rmdirGo fuel path false s = .error (.notEmpty, s) ∧
       rmdirGo fuel path true s = truncateList (fuel - 1) (rootNames s) s) ∧
    (m.is_root = false → bucketExists s m.bucket = true →
       ((getObjectsAt s m = [] → (m.is_bucket = true → bucketObjs s m.bucket = []) →
           ∃ s', rmdirGo fuel path false s = .ok s') ∧
        (getObjectsAt s m ≠ [] →
           rmdirGo fuel path false s = .error (.notEmpty, s)))) := by
  obtain ⟨k, rfl⟩ : ∃ k, fuel = k + 2 := ⟨fuel - 2, by omega⟩
  constructor
  · intro hroot
    constructor
    · show rmdirRun (k + 2) (.one path false) s = _
      simp only [rmdirRun, hparse]
      simp [hdir, hroot]
    · show rmdirRun (k + 2) (.one path true) s = rmdirRun (k + 2 - 1) (.many (rootNames s)) s
      simp only [rmdirRun, hparse, Nat.add_sub_cancel]
      simp [hdir, hroot]
  · intro hroot hbex
    have hloopempty : getObjectsAt s m = [] →
        rmdirLoop (k + 1) m.bucket false [path] s =
          .ok (if m.is_bucket = true then s
               else removeObject s m.bucket m.prefixStr) := by
      intro hobjs
      show rmdirLoop (k + 1) m.bucket false (path :: []) s = _
      by_cases hbk : m.is_bucket = true
      · simp [rmdirLoop, rmdirProcessDir, hparse, hobjs, hbk]
      · have hbk' : m.is_bucket = false := by
          cases hc : m.is_bucket with
          | true => exact absurd hc hbk
          | false => rfl
        simp [rmdirLoop, rmdirProcessDir, hparse, hobjs, hbk']
    constructor
    · intro hobjs hbb
      show ∃ s', rmdirRun (k + 2) (.one path false) s = .ok s'
      simp only [rmdirRun, hparse]
      rw [if_neg (by simp [hdir]), if_neg (by simp [hroot])]
      rw [hloopempty hobjs]
      by_cases hbk : m.is_bucket = true
      · obtain ⟨bk, hbkfind⟩ : ∃ bk,
            s.buckets.find? (fun bk => bk.name == m.bucket) = some bk := by
          have h1 : (s.buckets.find? (fun bk => bk.name == m.bucket)).isSome := by
            rw [List.find?_isSome]
            simpa [bucketExists, List.any_eq_true] using hbex
          exact Option.isSome_iff_exists.mp h1
        have hbkobjs : bk.objs = [] := by
          have hthis := hbb hbk
          unfold bucketObjs at hthis
          rw [hbkfind] at hthis
          exact hthis
        have hrb : removeBucket s m.bucket =
            .ok ⟨s.buckets.filter (fun bk => bk.name != m.bucket), s.clock⟩ := by
          unfold removeBucket
          rw [hbkfind]
          dsimp only
          rw [if_neg (by simp [hbkobjs])]
        refine ⟨⟨s.buckets.filter (fun bk => bk.name != m.bucket), s.clock⟩, ?_⟩
        simp [hbk, hrb]
      · have hbk' : m.is_bucket = false := by
          cases hc : m.is_bucket with
          | true => exact absurd hc hbk
          | false => rfl
        refine ⟨removeObject s m.bucket m.prefixStr, ?_⟩
        simp [hbk']
    · intro hobjs
      show rmdirRun (k + 2) (.one path false) s = .error (.notEmpty, s)
      simp only [rmdirRun, hparse]
      rw [if_neg (by simp [hdir]), if_neg (by simp [hroot])]
      have hloop : rmdirLoop (k + 1) m.bucket false [path] s =
          .error (.notEmpty, s) := by
        show rmdirLoop (k + 1) m.bucket false (path :: []) s = _
        simp [rmdirLoop, rmdirProcessDir, hparse, hobjs]
      rw [hloop]

/-- C4 witness at `storeD` (a single empty directory `/b/d/`). -/
theorem rmdir_nonrecursive_semantics_witness :
    parseMatch "/b/d/" = .ok ⟨"/b/d/", "b", "d/", ""⟩ ∧
    (⟨"/b/d/", "b", "d/", ""⟩ : PathMatch).is_file = false ∧ 2 ≤ 5 ∧
    (((⟨"/b/d/", "b", "d/", ""⟩ : PathMatch).is_root = true →
       rmdirGo 5 "/b/d/" false storeD = .error (.notEmpty, storeD) ∧
       rmdirGo 5 "/b/d/" true storeD = truncateList (5 - 1) (rootNames storeD) storeD) ∧
     ((⟨"/b/d/", "b", "d/", ""⟩ : PathMatch).is_root = false →
      bucketExists storeD (⟨"/b/d/", "b", "d/", ""⟩ : PathMatch).bucket = true →
       ((getObjectsAt storeD ⟨"/b/d/", "b", "d/", ""⟩ = [] →
           ((⟨"/b/d/", "b", "d/", ""⟩ : PathMatch).is_bucket = true →
              bucketObjs storeD (⟨"/b/d/", "b", "d/", ""⟩ : PathMatch).bucket = []) →
           ∃ s', rmdirGo 5 "/b/d/" false storeD = .ok s') ∧
        (getObjectsAt storeD ⟨"/b/d/", "b", "d/", ""⟩ ≠ [] →
           rmdirGo 5 "/b/d/" false storeD = .error (.notEmpty, storeD))))) :=
  ⟨by rfl, by decide, by decide,
   rmdir_nonrecursive_semantics 5 storeD "/b/d/" ⟨"/b/d/", "b", "d/", ""⟩
     (by rfl) (by decide) (by decide)⟩

/-- C2 counterexample: in `storeB` the directory `/b/d/` is non-empty and
the resolved destination `/b/e/d/` already exists.  `mv` with
`recursive=False` fails during the copy step (directories need
`recursive`), the cleanup condition nevertheless holds (both source and
resolved destination exist after the copy step), yet the source is not
deleted: the cleanup invokes `rm`, which raises `NotEmpty` — so "the
source is deleted iff both exist" fails in its left-to-right direction. -/
theorem mv_source_cleanup_counterexample :
    getDestination storeB "/b/d/" "/b/e/" = .ok ⟨"/b/e/d/", "b", "e/d/", ""⟩ ∧
    cp 10 "/b/d/" "/b/e/" false storeB = .error (.valueError, storeB) ∧
    exists' storeB "/b/d/" = true ∧
    exists' storeB "/b/e/d/" = true ∧
    mv 10 "/b/d/" "/b/e/" false storeB = .error (.notEmpty, storeB) ∧
    exists' (stateOf (mv 10 "/b/d/" "/b/e/" false storeB)) "/b/d/" = true :=
  ⟨by rfl, by rfl, by rfl, by rfl, by rfl, by rfl⟩

/-- C2 amended: after the copy step of `mv` completes (successfully or
with an exception), the source-removal step runs iff both the source and
the resolved destination exist in the post-copy state; when the condition
fails, `mv`'s outcome is exactly the copy step's outcome (the source is
untouched), and when it holds the outcome is that of `rm` on the source
(which may itself fail, in which case the source survives). -/
theorem mv_source_cleanup (fuel : Nat) (s : Store) (fromP toP : String)
    (recursive : Bool) (tm : PathMatch)
    (hdest : getDestination s fromP toP = .ok tm) :
    ((exists' (stateOf (cp fuel fromP toP recursive s)) fromP &&
      exists' (stateOf (cp fuel fromP toP recursive s)) tm.path) = false →
       mv fuel fromP toP recursive s = cp fuel fromP toP recursive s) ∧
    ((exists' (stateOf (cp fuel fromP toP recursive s)) fromP &&
      exists' (stateOf (cp fuel fromP toP recursive s)) tm.path) = true →
       mv fuel fromP toP recursive s =
         (match rm fuel fromP recursive (stateOf (cp fuel fromP toP recursive s)) with
          | .error e => .error e
          | .ok s'' =>
            match cp fuel fromP toP recursive s with
            | .error (e, _) => .error (e, s'')
            | .ok _ => .ok s'')) := by
  constructor
  · intro hcond
    simp only [mv, hdest]
    rw [if_neg (by simp [hcond])]
    cases hbody : cp fuel fromP toP recursive s with
    | ok s1 => simp [stateOf]
    | error p =>
      obtain ⟨e, s1⟩ := p
      simp [stateOf]
  · intro hcond
    simp only [mv, hdest]
    rw [if_pos hcond]

/-- C2 witness: a successful single-file move in `storeE`, where the
cleanup condition holds and the source is removed. -/
theorem mv_source_cleanup_witness :
    getDestination storeE "/b/x/ff" "/b/y/" = .ok ⟨"/b/y/ff", "b", "y/", "ff"⟩ ∧
    (((exists' (stateOf (cp 10 "/b/x/ff" "/b/y/" false storeE)) "/b/x/ff" &&
       exists' (stateOf (cp 10 "/b/x/ff" "/b/y/" false storeE))
         (⟨"/b/y/ff", "b", "y/", "ff"⟩ : PathMatch).path) = false →
        mv 10 "/b/x/ff" "/b/y/" false storeE = cp 10 "/b/x/ff" "/b/y/" false storeE) ∧
     ((exists' (stateOf (cp 10 "/b/x/ff" "/b/y/" false storeE)) "/b/x/ff" &&
       exists' (stateOf (cp 10 "/b/x/ff" "/b/y/" false storeE))
         (⟨"/b/y/ff", "b", "y/", "ff"⟩ : PathMatch).path) = true →
        mv 10 "/b/x/ff" "/b/y/" false storeE =
          (match rm 10 "/b/x/ff" false
              (stateOf (cp 10 "/b/x/ff" "/b/y/" false storeE)) with
           | .error e => .error e
           | .ok s'' =>
             match cp 10 "/b/x/ff" "/b/y/" false storeE with
             | .error (e, _) => .error (e, s'')
             | .ok _ => .ok s''))) :=
  ⟨by rfl,
   mv_source_cleanup 10 storeE "/b/x/ff" "/b/y/" false
     ⟨"/b/y/ff", "b", "y/", "ff"⟩ (by rfl)⟩
